import Mathlib

/-!
Verification of the Tachyon accumulator core against its specification.

This file shallowly embeds the Rust sources of the repository
(`crates/accum/src/poly.rs`, `crates/accum/src/ipa.rs`,
`crates/accum/src/poseidon/mod.rs`, `crates/consensus/src/accum_record.rs`,
`crates/pcd/src/wallet_step.rs`) into Lean.

Modelling conventions:
* `pasta_curves::vesta::Scalar` (field A, the Pallas base field) is `ZMod P`;
  `pasta_curves::pallas::Scalar` (field B) is `ZMod Q`, with the two Pasta
  primes `P` and `Q` spelled out below.
* Machine loops are rendered as folds or fuel-based structural recursion so
  that the kernel can evaluate every definition on concrete input.
* Fallible operations are `Option`-valued: `none` models a Rust panic
  (e.g. the `assert!` inside `blake2b_simd::Params::personal`, which fires
  whenever a personalization string longer than 16 bytes is supplied, or an
  `unwrap()` on an empty `CtOption`).  A three-valued `StepResult` models
  `anyhow::Result` for the wallet step, whose failure modes include both an
  explicit error and a crash.
* The elliptic-curve adapter is external to the repository; the Pallas group
  is embedded concretely (affine points of `y^2 = x^3 + 5` over `ZMod P`
  plus a point at infinity, with the textbook chord-tangent operations),
  while the windowed MSM, whose contract is pure group arithmetic, is stated
  over an arbitrary additive commutative group.
-/

set_option maxRecDepth 100000

namespace Tachyon

/-- Modulus of the Pallas base field = Vesta scalar field ("field A",
`pasta_curves::vesta::Scalar`), `p = 2^254 + 45560315531419706090280762371685220353`. -/
def P : Nat := 28948022309329048855892746252171976963363056481941560715954676764349967630337

/-- Modulus of the Pallas scalar field ("field B",
`pasta_curves::pallas::Scalar`), `q = 2^254 + 45560315531506369815346746415080538113`. -/
def Q : Nat := 28948022309329048855892746252171976963363056481941647379679742748393362948097

instance : NeZero Q := ⟨by decide⟩

/-- Field A: the Vesta scalar field, host of polynomial roots and coefficients. -/
abbrev FrVesta := ZMod P

/-- Field B: the Pallas scalar field, host of commitment scalars. -/
abbrev FqPallas := ZMod Q

/-- Two-adicity `S` of the Vesta scalar field (`pasta_curves::vesta::Scalar::S`). -/
def S_TOTAL : Nat := 32

/-- `pasta_curves::vesta::Scalar::ROOT_OF_UNITY`, the canonical generator of the
order-`2^32` subgroup: `5^((P-1)/2^32) mod P`
(= `0x2bce74deac30ebda362120830561f81aea322bf2b7bb7584bdad6fabd87ea32f`). -/
def ROOT_OF_UNITY : FrVesta := 19814229590243028906643993866117402072516588566294623396325693409366934201135

/-- Square-and-multiply over the bits `fuel-1, …, 0` of the exponent `e`;
renders `ff::Field::pow_vartime` (which scans every bit of its limbs). -/
def powVartimeGo (x : FrVesta) (e : Nat) : Nat → FrVesta → FrVesta
  | 0, acc => acc
  | i + 1, acc =>
    let a1 := acc * acc
    let a2 := if (e >>> i) &&& 1 = 1 then a1 * x else a1
    powVartimeGo x e i a2

/-- `pow_vartime` with a single 64-bit limb, as called in `omega_for_size`. -/
def powVartime (x : FrVesta) (e : Nat) : FrVesta := powVartimeGo x e 64 1

/-- `pow_vartime` with four 64-bit limbs (256 bits), used to render field inversion. -/
def powVartimeWide (x : FrVesta) (e : Nat) : FrVesta := powVartimeGo x e 256 1

/-- `ff::Field::invert` on the Vesta scalar field: `CtOption` that is `none`
exactly on `0`, otherwise the inverse `x^(P-2)` (Fermat). -/
def invert (x : FrVesta) : Option FrVesta :=
  if x = 0 then none else some (powVartimeWide x (P - 2))

/-! ### `crates/accum/src/poly.rs` -/

/-- One step of the multiply-by-`(X - r)` loop in `roots_to_coeffs`, with the
value `prev` carried into the lowest output slot: position `j` of the output
receives `(-r)*c[j] + c[j-1]` (with `c[-1] := prev`), and the top slot
receives `c.last`. -/
def rtcZip (c : List FrVesta) (r prev : FrVesta) : List FrVesta :=
  List.zipWith (· + ·) (c.map (fun cj => -r * cj) ++ [0]) (prev :: c)

/-- The body of the `for &r in roots` loop of `roots_to_coeffs`: multiply the
current coefficient vector by `(X - r)`. -/
def rtcNext (c : List FrVesta) (r : FrVesta) : List FrVesta := rtcZip c r 0

/-- `poly::roots_to_coeffs`: schoolbook expansion of `∏ (X - r_j)`,
coefficients in increasing degree order, starting from the polynomial `1`. -/
def roots_to_coeffs (roots : List FrVesta) : List FrVesta :=
  roots.foldl rtcNext [1]

/-- `poly::eval_horner`: Horner evaluation, coefficients consumed
highest-degree first (`coeffs.iter().rev()`). -/
def eval_horner (coeffs : List FrVesta) (x : FrVesta) : FrVesta :=
  coeffs.foldr (fun c acc => acc * x + c) 0

/-- `poly::eval_from_roots`: the direct product `∏ (x - a_j)`. -/
def eval_from_roots (roots : List FrVesta) (x : FrVesta) : FrVesta :=
  roots.foldl (fun acc a => acc * (x - a)) 1

/-- `poly::pad_coeffs_to`: zero-extend to `target_len`, no-op if already long enough. -/
def pad_coeffs_to (coeffs : List FrVesta) (target_len : Nat) : List FrVesta :=
  if coeffs.length < target_len then
    coeffs ++ List.replicate (target_len - coeffs.length) 0
  else coeffs

/-- `poly::convolve`: `out[i+j] += a[i] * b[j]` over a zero vector of length
`a.len + b.len - 1`. -/
def convolve (a b : List FrVesta) : List FrVesta :=
  (List.range a.length).foldl
    (fun out i =>
      (List.range b.length).foldl
        (fun out j => out.set (i + j) (out.getD (i + j) 0 + a.getD i 0 * b.getD j 0))
        out)
    (List.replicate (a.length + b.length - 1) 0)

/-- `poly::roots_to_coeffs_divide_conquer`, with a fuel argument bounding the
recursion depth (any `fuel ≥ roots.length` reproduces the Rust recursion,
which splits at the midpoint and convolves the two halves). -/
def rtcDC : Nat → List FrVesta → List FrVesta
  | _, [] => [1]
  | _, [r] => [-r, 1]
  | 0, _ => []
  | fuel + 1, roots =>
    let mid := roots.length / 2
    convolve (rtcDC fuel (roots.take mid)) (rtcDC fuel (roots.drop mid))

/-- `poly::roots_to_coeffs_parallel` (the two recursive halves run on
independent data; the join is pure, so the parallelism is semantically
invisible). -/
def roots_to_coeffs_parallel (roots : List FrVesta) : List FrVesta :=
  rtcDC roots.length roots

/-- `u32::trailing_zeros` restricted to the arguments used by `poly.rs`
(positive powers of two); fuel-based binary recursion. -/
def trailingZerosGo : Nat → Nat → Nat
  | 0, _ => 0
  | _, 0 => 0
  | fuel + 1, n => if n % 2 = 1 then 0 else trailingZerosGo fuel (n / 2) + 1

/-- `n.trailing_zeros()` for the power-of-two sizes handled by the NTT. -/
def trailingZeros (n : Nat) : Nat := trailingZerosGo 64 n

/-- Doubling loop behind `nextPow2`. -/
def nextPow2Aux : Nat → Nat → Nat → Nat
  | 0, acc, _ => acc
  | fuel + 1, acc, n => if n ≤ acc then acc else nextPow2Aux fuel (acc * 2) n

/-- Smallest power of two that is `≥ n` (with `0 → 1`), mirroring
`usize::next_power_of_two`. -/
def nextPow2 (n : Nat) : Nat := nextPow2Aux 64 1 n

/-- `poly::bitreverse`: reverse the low `lgn` bits of `x`. -/
def bitreverseGo : Nat → Nat → Nat → Nat
  | 0, _, y => y
  | k + 1, x, y => bitreverseGo k (x >>> 1) ((y <<< 1) ||| (x &&& 1))

/-- `bitreverse(x, lg_n)` from `poly.rs`. -/
def bitreverse (x lgn : Nat) : Nat := bitreverseGo lgn x 0

/-- The bit-reversal swap loop at the head of `fft_in_place`: since the swaps
realize an involutive permutation, the result reads index `bitreverse i` of
the input at every position `i`. -/
def bitrevPerm (a : List FrVesta) (lgn : Nat) : List FrVesta :=
  (List.range a.length).map (fun i => a.getD (bitreverse i lgn) 0)

/-- The butterfly at positions `(i, i+half)` with twiddle `w`:
`u, v := a[i], a[i+half]*w; a[i] := u+v; a[i+half] := u-v`. -/
def butterflyAt (a : List FrVesta) (i half : Nat) (w : FrVesta) : List FrVesta :=
  let u := a.getD i 0
  let v := a.getD (i + half) 0 * w
  (a.set i (u + v)).set (i + half) (u - v)

/-- Indices `j, j+len, j+2*len, …` below `n` (the strided inner `while i < n`). -/
def strideIdx (n j len : Nat) : List Nat :=
  (List.range ((n - j + len - 1) / len)).map (fun k => j + k * len)

/-- One pass (`len` fixed) of the `fft_in_place` main loop: for each
`j < len/2` the twiddle is `1` at `j = 0` and is multiplied by `w_m` at each
subsequent `j`, then the strided butterflies are applied. -/
def fftPass (a : List FrVesta) (wm : FrVesta) (len n : Nat) : List FrVesta :=
  ((List.range (len / 2)).foldl
    (fun (st : FrVesta × List FrVesta) j =>
      let w := if j = 0 then (1 : FrVesta) else st.1 * wm
      (w, (strideIdx n j len).foldl (fun b i => butterflyAt b i (len / 2) w) st.2))
    (1, a)).2

/-- The `while len <= n` loop of `fft_in_place`: `w_m` is squared and `len`
doubled after every pass. -/
def fftLoop : Nat → List FrVesta → FrVesta → Nat → Nat → List FrVesta
  | 0, a, _, _, _ => a
  | fuel + 1, a, wm, len, n =>
    if len ≤ n then fftLoop fuel (fftPass a wm len n) (wm * wm) (len * 2) n else a

/-- `poly::fft_in_place` as a function on the array value. -/
def fft_in_place (a : List FrVesta) (omega : FrVesta) : List FrVesta :=
  let n := a.length
  let lgn := trailingZeros n
  fftLoop (lgn + 1) (bitrevPerm a lgn) omega 2 n

/-- `poly::ifft_in_place`; `none` models the `invert().unwrap()` panic. -/
def ifft_in_place (a : List FrVesta) (omega_inv : FrVesta) : Option (List FrVesta) :=
  let b := fft_in_place a omega_inv
  (invert ((a.length : Nat) : FrVesta)).map (fun n_inv => b.map (fun v => v * n_inv))

/-- `poly::omega_for_size`: `ω = ROOT_OF_UNITY^(2^(S - log2 n))` and its
inverse; `none` models the `invert().unwrap()` panic. -/
def omega_for_size (n : Nat) : Option (FrVesta × FrVesta) :=
  let pw := 2 ^ (S_TOTAL - trailingZeros n)
  let omega := powVartime ROOT_OF_UNITY pw
  (invert omega).map (fun oi => (omega, oi))

/-- `poly::convolution_fft`: zero-pad to the next power of two, forward
transform both operands, pointwise multiply, inverse transform, truncate. -/
def convolution_fft (a b : List FrVesta) : Option (List FrVesta) := do
  let needed := a.length + b.length - 1
  let n := nextPow2 needed
  let (omega, omega_inv) ← omega_for_size n
  let fa := a ++ List.replicate (n - a.length) (0 : FrVesta)
  let fb := b ++ List.replicate (n - b.length) (0 : FrVesta)
  let fa := fft_in_place fa omega
  let fb := fft_in_place fb omega
  let prod := List.zipWith (· * ·) fa fb
  let r ← ifft_in_place prod omega_inv
  pure (r.take needed)

/-- One `polys.chunks(2)` combination round of the product tree. -/
def pairCombine : List (List FrVesta) → Option (List (List FrVesta))
  | [] => some []
  | [a] => some [a]
  | a :: b :: rest => do
    let c ← convolution_fft a b
    let r ← pairCombine rest
    pure (c :: r)

/-- The `while polys.len() > 1` loop of `roots_to_coeffs_fft`. -/
def productTreeLoop : Nat → List (List FrVesta) → Option (List (List FrVesta))
  | 0, polys => some polys
  | fuel + 1, polys =>
    if polys.length > 1 then do
      let next ← pairCombine polys
      productTreeLoop fuel next
    else some polys

/-- `poly::roots_to_coeffs_fft`: product tree over the linear leaves
`(X - r)`, combined by NTT convolution; `none` models a panic. -/
def roots_to_coeffs_fft (roots : List FrVesta) : Option (List FrVesta) :=
  if roots.isEmpty then some [1]
  else do
    let polys := roots.map (fun r => [-r, (1 : FrVesta)])
    let t ← productTreeLoop polys.length polys
    t.getLast?

/-! ### BLAKE2b (the `blake2b_simd` collaborator)

`blake2b_simd::Params::new().hash_length(l).personal(tag).hash(msg)` is
embedded as `blake2bHash l tag msg`.  `Params::personal` asserts that the
personalization is at most `PERSONALBYTES = 16` bytes and `hash_length`
asserts `1 ..= 64`; violating either assertion aborts the process, which the
embedding reports as `none`.  The compression function itself is the real
RFC 7693 BLAKE2b. -/

/-- Bytes of an ASCII string literal (all tags below are pure ASCII). -/
def asciiBytes (s : String) : List Nat := s.data.map Char.toNat

/-- 64-bit word mask. -/
def M64 : Nat := 2 ^ 64 - 1

/-- Addition modulo `2^64`. -/
def add64 (a b : Nat) : Nat := (a + b) &&& M64

/-- Right rotation of a 64-bit word. -/
def ror64 (x r : Nat) : Nat := ((x >>> r) ||| (x <<< (64 - r))) &&& M64

/-- BLAKE2b initialization vector. -/
def blakeIV : List Nat :=
  [0x6a09e667f3bcc908, 0xbb67ae8584caa73b, 0x3c6ef372fe94f82b, 0xa54ff53a5f1d36f1,
   0x510e527fade682d1, 0x9b05688c2b3e6c1f, 0x1f83d9abfb41bd6b, 0x5be0cd19137e2179]

/-- BLAKE2b message schedule. -/
def blakeSigma : List (List Nat) :=
  [[0, 1, 2, 3, 4, 5, 6, 7, 8, 9, 10, 11, 12, 13, 14, 15],
   [14, 10, 4, 8, 9, 15, 13, 6, 1, 12, 0, 2, 11, 7, 5, 3],
   [11, 8, 12, 0, 5, 2, 15, 13, 10, 14, 3, 6, 7, 1, 9, 4],
   [7, 9, 3, 1, 13, 12, 11, 14, 2, 6, 5, 10, 4, 0, 15, 8],
   [9, 0, 5, 7, 2, 4, 10, 15, 14, 1, 11, 12, 6, 8, 3, 13],
   [2, 12, 6, 10, 0, 11, 8, 3, 4, 13, 7, 5, 15, 14, 1, 9],
   [12, 5, 1, 15, 14, 13, 4, 10, 0, 7, 6, 3, 9, 2, 8, 11],
   [13, 11, 7, 14, 12, 1, 3, 9, 5, 0, 15, 4, 8, 6, 2, 10],
   [6, 15, 14, 9, 11, 3, 0, 8, 12, 2, 13, 7, 1, 4, 10, 5],
   [10, 2, 8, 4, 7, 6, 1, 5, 15, 11, 9, 14, 3, 12, 13, 0]]

/-- The BLAKE2b `G` mixing function acting on state positions `a b c d` with
message words `x y`. -/
def blakeG (v : List Nat) (a b c d x y : Nat) : List Nat :=
  let va := add64 (add64 (v.getD a 0) (v.getD b 0)) x
  let vd := ror64 ((v.getD d 0) ^^^ va) 32
  let vc := add64 (v.getD c 0) vd
  let vb := ror64 ((v.getD b 0) ^^^ vc) 24
  let va := add64 (add64 va vb) y
  let vd := ror64 (vd ^^^ va) 16
  let vc := add64 vc vd
  let vb := ror64 (vb ^^^ vc) 63
  ((((v.set a va).set b vb).set c vc).set d vd)

/-- One BLAKE2b round with schedule row `s` over message words `m`. -/
def blakeRound (m : List Nat) (v : List Nat) (s : List Nat) : List Nat :=
  let g := fun v a b c d i j => blakeG v a b c d (m.getD (s.getD i 0) 0) (m.getD (s.getD j 0) 0)
  let v := g v 0 4 8 12 0 1
  let v := g v 1 5 9 13 2 3
  let v := g v 2 6 10 14 4 5
  let v := g v 3 7 11 15 6 7
  let v := g v 0 5 10 15 8 9
  let v := g v 1 6 11 12 10 11
  let v := g v 2 7 8 13 12 13
  let v := g v 3 4 9 14 14 15
  v

/-- Little-endian value of a byte list. -/
def leNat (bs : List Nat) : Nat := bs.foldr (fun b acc => acc * 256 + b) 0

/-- The 16 little-endian 64-bit words of a (padded) 128-byte block. -/
def toBlockWords (bytes : List Nat) : List Nat :=
  (List.range 16).map (fun i => leNat ((bytes.drop (8 * i)).take 8))

/-- Little-endian bytes of a 64-bit word. -/
def wordBytes (w : Nat) : List Nat := (List.range 8).map (fun i => (w >>> (8 * i)) &&& 255)

/-- BLAKE2b compression of one block into the chain value `h`, with byte
counter `t` and finalization flag `last`. -/
def blakeCompress (h : List Nat) (block : List Nat) (t : Nat) (last : Bool) : List Nat :=
  let m := toBlockWords block
  let v := h ++ blakeIV
  let v := v.set 12 ((v.getD 12 0) ^^^ (t &&& M64))
  let v := v.set 13 ((v.getD 13 0) ^^^ ((t >>> 64) &&& M64))
  let v := if last then v.set 14 ((v.getD 14 0) ^^^ M64) else v
  let v := (List.range 12).foldl (fun v r => blakeRound m v (blakeSigma.getD (r % 10) [])) v
  (List.range 8).map (fun i => (h.getD i 0) ^^^ (v.getD i 0) ^^^ (v.getD (i + 8) 0))

/-- Block loop of BLAKE2b: full blocks are compressed with a running byte
counter; the final (possibly short, zero-padded) block is compressed with the
total length and the finalization flag. -/
def blakeBlocks : Nat → List Nat → List Nat → Nat → List Nat
  | 0, h, _, _ => h
  | fuel + 1, h, msg, done =>
    if msg.length ≤ 128 then
      blakeCompress h (msg ++ List.replicate (128 - msg.length) 0) (done + msg.length) true
    else
      blakeBlocks fuel (blakeCompress h (msg.take 128) (done + 128) false) (msg.drop 128) done

/-- Unchecked BLAKE2b with digest length `dl` bytes and (at most 16-byte)
personalization: parameter-block words 0, 6, 7 are folded into the IV. -/
def blake2bCore (dl : Nat) (personal : List Nat) (msg : List Nat) : List Nat :=
  let pers := personal ++ List.replicate (16 - personal.length) 0
  let h := blakeIV
  let h := h.set 0 ((h.getD 0 0) ^^^ (dl ||| 0x01010000))
  let h := h.set 6 ((h.getD 6 0) ^^^ leNat (pers.take 8))
  let h := h.set 7 ((h.getD 7 0) ^^^ leNat ((pers.drop 8).take 8))
  let h := blakeBlocks (msg.length / 128 + 1) h msg 0
  ((h.map wordBytes).flatten).take dl

/-- `Params::new().hash_length(dl).personal(personal).hash(msg)`: `none`
renders the `assert!` panics of `blake2b_simd` (digest length outside
`1 ..= 64`, personalization longer than 16 bytes). -/
def blake2bHash (dl : Nat) (personal : List Nat) (msg : List Nat) : Option (List Nat) :=
  if personal.length ≤ 16 ∧ 1 ≤ dl ∧ dl ≤ 64 then some (blake2bCore dl personal msg)
  else none

/-! ### `crates/accum/src/ipa.rs`: constants and base derivation -/

/-- Degree bound for the per-block polynomial. -/
def DEGREE_N : Nat := 4096

/-- Number of committed coefficients. -/
def NUM_COEFFICIENTS : Nat := DEGREE_N + 1

/-- Chunk size for fixed-base tables. -/
def CHUNK : Nat := 256

/-- Number of chunks covering all coefficients. -/
def NUM_CHUNKS : Nat := (NUM_COEFFICIENTS + CHUNK - 1) / CHUNK

/-- `ipa.rs`: `H2C_DOMAIN = b"tachyon/ipa:base-derivation"` (27 bytes). -/
def H2C_DOMAIN : List Nat := asciiBytes "tachyon/ipa:base-derivation"

/-- `ipa.rs`: `DS_COEFF_MAP = b"tachyon/coeff-map"` (17 bytes). -/
def DS_COEFF_MAP : List Nat := asciiBytes "tachyon/coeff-map"

/-- `poseidon/mod.rs`: `DOM_A_H = b"tachyon:A/h"` (11 bytes, commented `// 12`). -/
def DOM_A_H : List Nat := asciiBytes "tachyon:A/h"

/-- `poseidon/mod.rs`: `DOM_S_H = b"tachyon:S/h"` (11 bytes, commented `// 12`). -/
def DOM_S_H : List Nat := asciiBytes "tachyon:S/h"

/-- `poseidon/mod.rs`: `DOM_BLOCK_R = b"tachyon:block:r"` (15 bytes, commented `// 16`). -/
def DOM_BLOCK_R : List Nat := asciiBytes "tachyon:block:r"

/-- Little-endian bytes of the low `k` bytes of `n` (`u32::to_le_bytes` for `k = 4`). -/
def leBytes (k n : Nat) : List Nat := (List.range k).map (fun i => (n >>> (8 * i)) &&& 255)

/-- `ff::FromUniformBytes::<64>::from_uniform_bytes` on the Pallas scalar
field: wide reduction of the 64-byte little-endian value modulo `Q`. -/
def fromUniformBytesQ (bytes : List Nat) : FqPallas := ((leNat bytes : Nat) : FqPallas)

/-- `ipa::derive_scalar(chunk, idx)`: BLAKE2b-512 of `le(chunk) ++ le(idx)`
personalized with `H2C_DOMAIN`, reduced into the Pallas scalar field.
Since `H2C_DOMAIN` has 27 bytes, the personalization assert fires. -/
def derive_scalar (chunk idx : Nat) : Option FqPallas :=
  let le := leBytes 4 chunk ++ leBytes 4 idx
  (blake2bHash 64 H2C_DOMAIN le).map fromUniformBytesQ

/-- Affine Pallas point or the group identity (the curve adapter's
`pallas::Affine`): `y^2 = x^3 + 5` over the Pallas base field `ZMod P`. -/
inductive PallasPoint : Type
  | identity : PallasPoint
  | affine (x y : FrVesta) : PallasPoint
deriving DecidableEq

/-- Field inversion in the Pallas base field (Fermat), total with junk at `0`;
used only inside the chord/tangent formulas. -/
def pinv (x : FrVesta) : FrVesta := powVartimeWide x (P - 2)

/-- Group operation of the Pallas curve (chord-tangent; the adapter library
computes the same group law with complete projective formulas). -/
def pointAdd : PallasPoint → PallasPoint → PallasPoint
  | PallasPoint.identity, q => q
  | p, PallasPoint.identity => p
  | PallasPoint.affine x1 y1, PallasPoint.affine x2 y2 =>
    if x1 = x2 then
      if y1 = -y2 then PallasPoint.identity
      else
        let lam := (3 * x1 * x1) * pinv (2 * y1)
        let x3 := lam * lam - x1 - x2
        PallasPoint.affine x3 (lam * (x1 - x3) - y1)
    else
      let lam := (y2 - y1) * pinv (x2 - x1)
      let x3 := lam * lam - x1 - x2
      PallasPoint.affine x3 (lam * (x1 - x3) - y1)

/-- Point doubling. -/
def pointDouble (p : PallasPoint) : PallasPoint := pointAdd p p

/-- Double-and-add scalar multiplication by a natural number, over the high
256 bits downward (how the adapter multiplies by a canonical representative). -/
def pointSmulGo (s : Nat) (p : PallasPoint) : Nat → PallasPoint → PallasPoint
  | 0, acc => acc
  | i + 1, acc =>
    let acc := pointDouble acc
    let acc := if (s >>> i) &&& 1 = 1 then pointAdd acc p else acc
    pointSmulGo s p i acc

/-- `[s]P` for `s : Nat`. -/
def pointSmul (s : Nat) (p : PallasPoint) : PallasPoint := pointSmulGo s p 256 PallasPoint.identity

/-- Scalar multiplication by a Pallas scalar (acts through its canonical
representative). -/
def mul_point (p : PallasPoint) (s : FqPallas) : PallasPoint := pointSmul s.val p

/-- Addition of two Pallas points (`ipa::add_points`). -/
def add_points (a b : PallasPoint) : PallasPoint := pointAdd a b

/-- The canonical Pallas generator `(-1, 2)` of `pasta_curves`. -/
def pallasGenerator : PallasPoint := PallasPoint.affine (-1) 2

/-- `ipa::derive_base(chunk, idx) = [derive_scalar(chunk, idx)] * G`;
`none` models the panic propagated from `derive_scalar`. -/
def derive_base (chunk idx : Nat) : Option PallasPoint :=
  (derive_scalar chunk idx).map (fun s => pointSmul s.val pallasGenerator)

/-- `ipa::g0()`: the distinguished basis point at `(chunk, idx) = (0, 0)`. -/
def g0 : Option PallasPoint := derive_base 0 0

/-- `ipa::map_vesta_scalar_to_pallas`: BLAKE2b-512 personalized with the
17-byte `DS_COEFF_MAP`, wide-reduced into the Pallas scalar field; the
personalization assert always fires. -/
def map_vesta_scalar_to_pallas (vesta_bytes32 : List Nat) : Option FqPallas :=
  (blake2bHash 64 DS_COEFF_MAP vesta_bytes32).map fromUniformBytesQ

/-! ### `ipa::msm_pippenger` (the MSM Engine)

The MSM contract is pure group arithmetic over the external curve adapter,
so the algorithm is embedded over an arbitrary additive commutative group
`G`; scalars act through their canonical representatives (`to_repr` is the
canonical little-endian form, and the adapter's `Point * Scalar` is
double-and-add over those bytes). -/

/-- `pallas::Scalar::NUM_BITS`. -/
def NUM_BITS : Nat := 255

/-- The `optimal_window` step function of `msm_pippenger`. -/
def optimal_window (n : Nat) : Nat :=
  if n ≤ 32 then 3
  else if n ≤ 128 then 5
  else if n ≤ 512 then 7
  else if n ≤ 2048 then 11
  else if n ≤ 8192 then 13
  else 15

/-- `PrimeField::to_repr` of a Pallas scalar: canonical 32 little-endian
bytes of its representative. -/
def scalarLeBytes (s : FqPallas) : List Nat := leBytes 32 s.val

/-- The `for i in 0..w` loop of `window_value`: collect bit `start + i` into
position `i` of `acc`, stopping at the 32-byte boundary. -/
def windowValueGo (bytes : List Nat) (start : Nat) : Nat → Nat → Nat → Nat
  | 0, _, acc => acc
  | rem + 1, i, acc =>
    let bitIdx := start + i
    let byte := bitIdx >>> 3
    if 32 ≤ byte then acc
    else windowValueGo bytes start rem (i + 1)
      (acc ||| ((((bytes.getD byte 0) >>> (bitIdx &&& 7)) &&& 1) <<< i))

/-- `window_value(bytes_le, win, w)` from `msm_pippenger`. -/
def window_value (bytes : List Nat) (win w : Nat) : Nat :=
  windowValueGo bytes (win * w) w 0 0

section MSMEngine

variable {G : Type} [AddCommGroup G]

/-- The `for _ in 0..w { acc = acc.double() }` loop. -/
def doubleTimes : Nat → G → G
  | 0, x => x
  | k + 1, x => doubleTimes k (x + x)

/-- `buckets[idx] += g`. -/
def bucketAdd (buckets : List G) (idx : Nat) (g : G) : List G :=
  buckets.set idx (buckets.getD idx 0 + g)

/-- The weighted bucket total `Σ (k+1) • buckets[k]` that the running-sum
scan computes (in the recursion, weight `k+1` shows as one copy of the tail
sum plus the tail's own weighted total). -/
def listWeightedSum : List G → G
  | [] => 0
  | b :: bs => b + bs.sum + listWeightedSum bs

/-- The `for j in (0..bucket_len).rev { running += buckets[j]; acc += running }`
scan: first component is `running`, second the total added into `acc`. -/
def bucketScan (buckets : List G) : G × G :=
  buckets.foldr (fun b st => (st.1 + b, st.2 + (st.1 + b))) (0, 0)

/-- The bucket-filling loop of one window: add `bases[i]` into bucket
`digit - 1` for every index with a nonzero digit, starting from `2^w - 1`
identity buckets. -/
def fillBuckets (bases : List G) (scalars_le : List (List Nat)) (win w m : Nat) : List G :=
  (List.range m).foldl
    (fun bkts i =>
      if window_value (scalars_le.getD i []) win w = 0 then bkts
      else bucketAdd bkts (window_value (scalars_le.getD i []) win w - 1) (bases.getD i 0))
    (List.replicate (2 ^ w - 1) 0)

/-- `ipa::msm_pippenger`: windowed bucket MSM over the shorter of the two
inputs; windows are processed from most significant to least significant
with `w` doublings before each window. -/
def msm_pippenger (bases : List G) (scalars : List FqPallas) : G :=
  let m := min bases.length scalars.length
  if m = 0 then 0
  else
    let w := optimal_window m
    let num_windows := (NUM_BITS + w - 1) / w
    let scalars_le := (scalars.take m).map scalarLeBytes
    ((List.range num_windows).reverse).foldl
      (fun acc win => doubleTimes w acc + (bucketScan (fillBuckets bases scalars_le win w m)).2)
      0

/-- The schoolbook accumulation loop of `ipa::circuit::msm_reference` on
explicit bases: `acc += bases[i] * scalars[i]` over the shorter length. -/
def msm_schoolbook (bases : List G) (scalars : List FqPallas) : G :=
  let m := min scalars.length bases.length
  (List.range m).foldl (fun acc i => acc + (scalars.getD i 0).val • bases.getD i 0) 0

end MSMEngine

/-! ### `crates/accum/src/poseidon/mod.rs` -/

/-- `poseidon::hash_A_h`: 32-byte BLAKE2b of `A_i ‖ P_i` personalized with
`DOM_A_H`. -/
def hash_A_h (a_i p_i : List Nat) : Option (List Nat) :=
  blake2bHash 32 DOM_A_H (a_i ++ p_i)

/-- `poseidon::hash_S_h`: 32-byte BLAKE2b of `S_i ‖ P_i'` personalized with
`DOM_S_H`. -/
def hash_S_h (s_i p_i_prime : List Nat) : Option (List Nat) :=
  blake2bHash 32 DOM_S_H (s_i ++ p_i_prime)

/-- `poseidon::derive_block_r`: 32-byte BLAKE2b of `P_i ‖ A_i` personalized
with `DOM_BLOCK_R`. -/
def derive_block_r (p_i a_i : List Nat) : Option (List Nat) :=
  blake2bHash 32 DOM_BLOCK_R (p_i ++ a_i)

/-! ### Point encoding (`ipa::encode_point` / `ipa::decode_point`) -/

/-- `PrimeField::to_repr` on the Pallas base field: canonical 32 little-endian
bytes. -/
def fpToRepr (x : FrVesta) : List Nat := leBytes 32 x.val

/-- `PrimeField::from_repr`: accept exactly the canonical (value `< P`)
little-endian byte strings. -/
def fpFromRepr (bytes : List Nat) : Option FrVesta :=
  let v := leNat bytes
  if v < P then some ((v : Nat) : FrVesta) else none

/-- `ipa::encode_point`: 32-byte compressed encoding; the identity is all
zeros, otherwise `x`'s repr with the parity of `y` packed into bit 7 of byte
31. -/
def encode_point : PallasPoint → List Nat
  | PallasPoint.identity => List.replicate 32 0
  | PallasPoint.affine x y =>
    let xb := fpToRepr x
    (xb.take 31) ++ [(xb.getD 31 0) ||| ((y.val % 2) <<< 7)]

/-- Tonelli–Shanks square root in the Pallas base field (`ff::Field::sqrt` of
the adapter), with the result checked so that `none` is returned exactly on
non-residues.  Inner loop: find the least `i < m` with `b^(2^i) = 1`. -/
def sqrtLeastPow (b : FrVesta) : Nat → Nat
  | 0 => 0
  | fuel + 1 =>
    if b = 1 then 0 else sqrtLeastPow (b * b) fuel + 1

/-- Tonelli–Shanks main loop: maintain `x^2 = a * b` with `b` of order
dividing `2^m` and `c` of order exactly `2^m`. -/
def sqrtFpGo : Nat → FrVesta → FrVesta → FrVesta → Nat → FrVesta
  | 0, x, _, _, _ => x
  | fuel + 1, x, b, c, m =>
    if b = 1 then x
    else
      let i := sqrtLeastPow b m
      let e := 2 ^ (m - i - 1)
      let cf := powVartime c e
      sqrtFpGo fuel (x * cf) (b * cf * cf) (cf * cf) i

/-- Square root in the Pallas base field; `none` exactly on non-residues
(the final check makes the fuelled loop exact). -/
def sqrtFp (a : FrVesta) : Option FrVesta :=
  if a = 0 then some 0
  else
    let t := (P - 1) / 2 ^ 32
    let x := powVartimeWide a ((t + 1) / 2)
    let b := powVartimeWide a t
    let r := sqrtFpGo 33 x b ROOT_OF_UNITY 32
    if r * r = a then some r else none

/-- `ipa::decode_point`: split off the sign bit, parse the canonical `x`
repr, special-case the identity at `x = 0` with clear sign, otherwise take
the square root of `x^3 + 5` and select the root with matching parity. -/
def decode_point (bytes : List Nat) : Option PallasPoint :=
  let ysign := (bytes.getD 31 0) >>> 7
  let tmp := (bytes.take 31) ++ [(bytes.getD 31 0) &&& 0x7f]
  match fpFromRepr tmp with
  | none => none
  | some x =>
    if x = 0 ∧ ysign = 0 then some PallasPoint.identity
    else
      match sqrtFp (x * x * x + 5) with
      | none => none
      | some y =>
        let sign := y.val % 2
        let y := if ysign ≠ sign then -y else y
        some (PallasPoint.affine x y)

/-! ### `crates/consensus/src/accum_record.rs` -/

/-- `BlockAccumRecord`: the publishable artifact of one accumulator step
(fields are the raw 32-byte strings plus opaque proof bytes). -/
structure BlockAccumRecord : Type where
  p_i : List Nat
  h_i : List Nat
  a_next : List Nat
  proof : List Nat
deriving DecidableEq

/-- `BlockAccumRecord::from_ai_pi`.  Rust's
`decode_point(..).unwrap_or(ipa::g0())` evaluates `g0()` eagerly (by-value
argument), so the panic inside `g0` fires before the decode result is even
inspected; each `match … none` branch records a panic. -/
def from_ai_pi (a_i p_i proof : List Nat) : Option BlockAccumRecord :=
  match hash_A_h a_i p_i with
  | none => none
  | some h_i =>
    match g0 with
    | none => none
    | some gdefault =>
      let a_i_aff := (decode_point a_i).getD gdefault
      match g0 with
      | none => none
      | some gdefault2 =>
        let p_i_aff := (decode_point p_i).getD gdefault2
        match map_vesta_scalar_to_pallas h_i with
        | none => none
        | some h_scalar =>
          let a_next_aff := pointAdd (mul_point a_i_aff h_scalar) p_i_aff
          some ⟨p_i, h_i, encode_point a_next_aff, proof⟩

/-- `BlockAccumRecord::verify_step`: decode both points (`false` on decode
failure), recompute and compare `h_i` (`false` on mismatch), then recompute
`A_{i+1}` and compare encodings.  `none` records a panic (reached through
`map_vesta_scalar_to_pallas`). -/
def verify_step (r : BlockAccumRecord) (a_i : List Nat) : Option Bool :=
  match decode_point a_i with
  | none => some false
  | some a_i_aff =>
    match decode_point r.p_i with
    | none => some false
    | some p_i_aff =>
      match hash_A_h a_i r.p_i with
      | none => none
      | some expected_h =>
        if expected_h ≠ r.h_i then some false
        else
          match map_vesta_scalar_to_pallas r.h_i with
          | none => none
          | some h_scalar =>
            some (decide
              (encode_point (pointAdd (mul_point a_i_aff h_scalar) p_i_aff) = r.a_next))

/-! ### `crates/pcd/src/wallet_step.rs` -/

/-- Outcome of a Rust `anyhow::Result`-returning call that may also panic:
`ok` for `Ok`, `err` for `anyhow::bail!`, `crash` for a panic. -/
inductive StepResult (α : Type) : Type
  | ok (val : α) : StepResult α
  | err (msg : String) : StepResult α
  | crash : StepResult α
deriving DecidableEq

/-- `WalletStepWitness` (the point fields hold already-decoded curve points). -/
structure WalletStepWitness : Type where
  v : FrVesta
  alpha_i : FrVesta
  alpha_inv : FrVesta
  p_i : PallasPoint
  s_i : PallasPoint
  a_i : PallasPoint

/-- `WalletStepPublic`: the three published point encodings. -/
structure WalletStepPublic : Type where
  a_i_bytes : List Nat
  a_next_bytes : List Nat
  s_next_bytes : List Nat
deriving DecidableEq

/-- `pcd::wallet_step::prove_wallet_step`: check `alpha_i * alpha_inv = 1`
(explicit error on mismatch), remove `[alpha] G_0` from `P_i`, chain both
accumulators, return the three encodings and empty proof bytes. -/
def prove_wallet_step (w : WalletStepWitness) : StepResult (WalletStepPublic × List Nat) :=
  if w.alpha_i * w.alpha_inv ≠ 1 then StepResult.err "alpha inverse mismatch"
  else
    match g0 with
    | none => StepResult.crash
    | some gz =>
      let alpha_bytes := fpToRepr w.alpha_i
      match map_vesta_scalar_to_pallas alpha_bytes with
      | none => StepResult.crash
      | some alpha_pallas =>
        let p_prime := pointAdd w.p_i (mul_point gz (-alpha_pallas))
        let p_i_bytes := encode_point w.p_i
        let a_i_bytes := encode_point w.a_i
        let s_i_bytes := encode_point w.s_i
        let p_prime_bytes := encode_point p_prime
        match hash_A_h a_i_bytes p_i_bytes with
        | none => StepResult.crash
        | some h_i_bytes =>
          match hash_S_h s_i_bytes p_prime_bytes with
          | none => StepResult.crash
          | some h_i_prime_bytes =>
            match map_vesta_scalar_to_pallas h_i_bytes with
            | none => StepResult.crash
            | some h_i =>
              match map_vesta_scalar_to_pallas h_i_prime_bytes with
              | none => StepResult.crash
              | some h_i_prime =>
                let a_next := pointAdd (mul_point w.a_i h_i) w.p_i
                let s_next := pointAdd (mul_point w.s_i h_i_prime) p_prime
                StepResult.ok (⟨a_i_bytes, encode_point a_next, encode_point s_next⟩, [])

/-! ### Lemmas about `roots_to_coeffs` -/

theorem eval_horner_cons (y : FrVesta) (ys : List FrVesta) (x : FrVesta) :
    eval_horner (y :: ys) x = eval_horner ys x * x + y := rfl

theorem rtcZip_nil (r prev : FrVesta) : rtcZip [] r prev = [prev] := by
  simp [rtcZip]

theorem rtcZip_cons (a : FrVesta) (c : List FrVesta) (r prev : FrVesta) :
    rtcZip (a :: c) r prev = (-r * a + prev) :: rtcZip c r a := by
  simp [rtcZip]

theorem rtcZip_eval (c : List FrVesta) (r x prev : FrVesta) :
    eval_horner (rtcZip c r prev) x = (x - r) * eval_horner c x + prev := by
  induction c generalizing prev with
  | nil => simp [rtcZip_nil, eval_horner]
  | cons a c ih =>
      rw [rtcZip_cons, eval_horner_cons, ih, eval_horner_cons]
      ring

theorem rtcNext_eval (c : List FrVesta) (r x : FrVesta) :
    eval_horner (rtcNext c r) x = (x - r) * eval_horner c x := by
  rw [rtcNext, rtcZip_eval]; ring

theorem eval_from_roots_factor (rs : List FrVesta) (x m : FrVesta) :
    rs.foldl (fun acc a => acc * (x - a)) m
      = m * rs.foldl (fun acc a => acc * (x - a)) 1 := by
  induction rs generalizing m with
  | nil => simp
  | cons r rs ih =>
      simp only [List.foldl_cons]
      rw [ih (m * (x - r)), ih (1 * (x - r))]
      ring

theorem eval_foldl_rtcNext (rs : List FrVesta) (c : List FrVesta) (x : FrVesta) :
    eval_horner (rs.foldl rtcNext c) x = eval_horner c x * eval_from_roots rs x := by
  induction rs generalizing c with
  | nil => simp [eval_from_roots]
  | cons r rs ih =>
      simp only [List.foldl_cons]
      rw [ih (rtcNext c r), rtcNext_eval]
      simp only [eval_from_roots, List.foldl_cons]
      rw [eval_from_roots_factor rs x (1 * (x - r))]
      ring

theorem rtcZip_length (c : List FrVesta) (r prev : FrVesta) :
    (rtcZip c r prev).length = c.length + 1 := by
  simp [rtcZip]

theorem rtcZip_ne_nil (c : List FrVesta) (r prev : FrVesta) : rtcZip c r prev ≠ [] := by
  intro h
  have := rtcZip_length c r prev
  rw [h] at this
  simp at this

theorem getLast?_cons_of_ne_nil {α : Type} (x : α) (l : List α) (h : l ≠ []) :
    (x :: l).getLast? = l.getLast? := by
  cases l with
  | nil => exact absurd rfl h
  | cons b t => exact List.getLast?_cons_cons

theorem rtcZip_getLast? (c : List FrVesta) (r prev : FrVesta) :
    (rtcZip c r prev).getLast? = some (c.getLast?.getD prev) := by
  induction c generalizing prev with
  | nil => simp [rtcZip_nil]
  | cons a c ih =>
      rw [rtcZip_cons]
      rcases c with _ | ⟨b, c⟩
      · simp [rtcZip_nil]
      · rw [getLast?_cons_of_ne_nil _ _ (rtcZip_ne_nil _ _ _), ih,
          List.getLast?_cons_cons]
        have hbc : (b :: c).getLast? = some ((b :: c).getLast (by simp)) :=
          List.getLast?_eq_getLast_of_ne_nil (by simp)
        rw [hbc]
        rfl

theorem foldl_rtcNext_shape (rs : List FrVesta) (c : List FrVesta) (hc : c ≠ []) :
    (rs.foldl rtcNext c).length = c.length + rs.length ∧
      (rs.foldl rtcNext c).getLast? = c.getLast? := by
  induction rs generalizing c with
  | nil => simp
  | cons r rs ih =>
      simp only [List.foldl_cons]
      have hne : rtcNext c r ≠ [] := rtcZip_ne_nil _ _ _
      obtain ⟨hlen, hlast⟩ := ih (rtcNext c r) hne
      refine ⟨?_, ?_⟩
      · rw [hlen, rtcNext, rtcZip_length]
        simp only [List.length_cons]
        omega
      · rw [hlast, rtcNext, rtcZip_getLast?]
        cases hcl : c.getLast? with
        | none => exact absurd (List.getLast?_eq_none_iff.1 hcl) hc
        | some l => rfl

/-! ### Lemmas for the MSM engine -/

theorem lor_shiftLeft_eq_add : ∀ (i a b : Nat), a < 2 ^ i → a ||| (b <<< i) = a + b * 2 ^ i := by
  intro i
  induction i with
  | zero =>
      intro a b ha
      have : a = 0 := Nat.lt_one_iff.1 (by simpa using ha)
      subst this
      simp [Nat.shiftLeft_eq]
  | succ i ih =>
      intro a b ha
      have hb : b <<< (i + 1) = Nat.bit false (b <<< i) := by
        simp [Nat.bit_val, Nat.shiftLeft_eq, pow_succ]
        ring
      have hd2 : a.div2 < 2 ^ i := by
        rw [Nat.div2_val]
        rw [Nat.div_lt_iff_lt_mul (by norm_num)]
        calc a < 2 ^ (i + 1) := ha
        _ = 2 ^ i * 2 := by rw [pow_succ]
      conv_lhs => rw [← Nat.bit_decomp a]
      rw [hb, Nat.lor_bit, ih a.div2 b hd2, Nat.bit_val, Bool.or_false]
      have hback : 2 * a.div2 + a.bodd.toNat = a := by
        rw [← Nat.bit_val, Nat.bit_decomp]
      rw [pow_succ]
      ring_nf
      omega

theorem getD_leBytes (n i : Nat) :
    (leBytes 32 n).getD i 0 = if i < 32 then n / 2 ^ (8 * i) % 256 else 0 := by
  unfold leBytes
  by_cases h : i < 32
  · simp [List.getD, h, Nat.shiftRight_eq_div_pow]
    have h8 := Nat.and_pow_two_sub_one_eq_mod (n / 2 ^ (8 * i)) 8
    norm_num at h8
    exact h8
  · rw [List.getD_eq_getElem?_getD, List.getElem?_eq_none]
    · simp [h]
    · simpa using Nat.le_of_not_lt h

theorem leBytes_bit (n bitIdx : Nat) (h : bitIdx < 256) :
    ((leBytes 32 n).getD (bitIdx >>> 3) 0 >>> (bitIdx &&& 7)) &&& 1 = n / 2 ^ bitIdx % 2 := by
  have hbyte : bitIdx >>> 3 = bitIdx / 8 := by
    rw [Nat.shiftRight_eq_div_pow]
  have h7 : bitIdx &&& 7 = bitIdx % 8 := by
    have := Nat.and_pow_two_sub_one_eq_mod bitIdx 3
    norm_num at this
    exact this
  have hb32 : bitIdx / 8 < 32 := by omega
  rw [hbyte, h7, getD_leBytes, if_pos hb32, Nat.shiftRight_eq_div_pow, Nat.and_one_is_mod]
  have h256 : (256 : Nat) = 2 ^ (bitIdx % 8) * 2 ^ (8 - bitIdx % 8) := by
    rw [← pow_add]
    have he : bitIdx % 8 + (8 - bitIdx % 8) = 8 := by omega
    rw [he]
    norm_num
  rw [h256, Nat.mod_mul_right_div_self, Nat.div_div_eq_div_mul, ← pow_add]
  have harg : 8 * (bitIdx / 8) + bitIdx % 8 = bitIdx := by omega
  rw [harg]
  exact Nat.mod_mod_of_dvd _ (dvd_pow_self 2 (by omega))

theorem windowValueGo_spec (n : Nat) :
    ∀ (rem start i acc : Nat), acc < 2 ^ i →
      windowValueGo (leBytes 32 n) start rem i acc
        = acc + n / 2 ^ (start + i) % 2 ^ (min rem (256 - (start + i))) * 2 ^ i := by
  intro rem
  induction rem with
  | zero => intro start i acc hacc; simp [windowValueGo, Nat.mod_one]
  | succ rem ih =>
      intro start i acc hacc
      simp only [windowValueGo]
      by_cases hbreak : 32 ≤ (start + i) >>> 3
      · rw [if_pos hbreak]
        have h256 : 256 ≤ start + i := by
          rw [Nat.shiftRight_eq_div_pow] at hbreak
          norm_num at hbreak
          omega
        rw [Nat.sub_eq_zero_of_le h256]
        simp [Nat.mod_one]
      · rw [if_neg hbreak]
        have hlt : start + i < 256 := by
          rw [Nat.shiftRight_eq_div_pow] at hbreak
          norm_num at hbreak
          omega
        rw [leBytes_bit n (start + i) hlt]
        set b := n / 2 ^ (start + i) % 2 with hbdef
        have hb1 : b ≤ 1 := by
          have := Nat.mod_lt (n / 2 ^ (start + i)) (show 0 < 2 by norm_num)
          omega
        rw [lor_shiftLeft_eq_add i acc b hacc]
        have hacc' : acc + b * 2 ^ i < 2 ^ (i + 1) := by
          have hble : b * 2 ^ i ≤ 2 ^ i := by
            calc b * 2 ^ i ≤ 1 * 2 ^ i := Nat.mul_le_mul_right _ hb1
            _ = 2 ^ i := one_mul _
          calc acc + b * 2 ^ i < 2 ^ i + 2 ^ i := by omega
          _ = 2 ^ (i + 1) := by rw [pow_succ]; ring
        rw [ih start (i + 1) (acc + b * 2 ^ i) hacc']
        have hmin : min (rem + 1) (256 - (start + i)) = min rem (256 - (start + (i + 1))) + 1 := by
          omega
        rw [hmin]
        have h1 : n / 2 ^ (start + i) / 2 = n / 2 ^ (start + (i + 1)) := by
          rw [Nat.div_div_eq_div_mul, ← pow_succ, Nat.add_assoc]
        have hsplit : n / 2 ^ (start + i) % 2 ^ (min rem (256 - (start + (i + 1))) + 1)
            = b + 2 * (n / 2 ^ (start + (i + 1)) % 2 ^ (min rem (256 - (start + (i + 1))))) := by
          rw [show (2 : Nat) ^ (min rem (256 - (start + (i + 1))) + 1)
              = 2 * 2 ^ (min rem (256 - (start + (i + 1)))) from by rw [pow_succ]; ring]
          rw [Nat.mod_mul, h1, hbdef]
        rw [hsplit]
        ring

theorem window_value_spec (n win w : Nat) (hn : n < 2 ^ 256) :
    window_value (leBytes 32 n) win w = n / 2 ^ (win * w) % 2 ^ w := by
  rw [window_value, windowValueGo_spec n w (win * w) 0 0 (by norm_num)]
  rw [Nat.add_zero, pow_zero, mul_one, Nat.zero_add]
  rcases le_or_lt (win * w + w) 256 with hcase | hcase
  · rw [min_eq_left (by omega)]
  · rcases le_or_lt 256 (win * w) with hge | hstraddle
    · rw [Nat.sub_eq_zero_of_le hge]
      rw [min_eq_right (by omega), pow_zero, Nat.mod_one]
      have : n / 2 ^ (win * w) = 0 := by
        apply Nat.div_eq_of_lt
        calc n < 2 ^ 256 := hn
        _ ≤ 2 ^ (win * w) := Nat.pow_le_pow_right (by norm_num) hge
      rw [this]
      simp
    · have hk : 256 - win * w < w := by omega
      rw [min_eq_right (by omega)]
      have hdivlt : n / 2 ^ (win * w) < 2 ^ (256 - win * w) := by
        rw [Nat.div_lt_iff_lt_mul (Nat.pos_pow_of_pos _ (by norm_num))]
        calc n < 2 ^ 256 := hn
        _ = 2 ^ (256 - win * w) * 2 ^ (win * w) := by rw [← pow_add]; congr 1; omega
      rw [Nat.mod_eq_of_lt hdivlt,
        Nat.mod_eq_of_lt (lt_trans hdivlt (Nat.pow_lt_pow_right (by norm_num) hk))]

theorem digits_reconstruct (w n : Nat) :
    ∀ nw, (∑ win ∈ Finset.range nw, n / 2 ^ (win * w) % 2 ^ w * 2 ^ (win * w))
      = n % 2 ^ (nw * w) := by
  intro nw
  induction nw with
  | zero => simp [Nat.mod_one]
  | succ nw ih =>
      rw [Finset.sum_range_succ, ih]
      have hexp : (nw + 1) * w = nw * w + w := by ring
      rw [hexp, pow_add, Nat.mod_mul]
      ring

theorem ceil_mul_ge (w a : Nat) (hw : 0 < w) : a ≤ w * ((a + w - 1) / w) := by
  have h := Nat.div_add_mod (a + w - 1) w
  have hr : (a + w - 1) % w < w := Nat.mod_lt _ hw
  generalize hq : w * ((a + w - 1) / w) = t at *
  omega

section MSMEngineLemmas

variable {G : Type} [AddCommGroup G]

theorem doubleTimes_eq (k : Nat) : ∀ x : G, doubleTimes k x = 2 ^ k • x := by
  induction k with
  | zero => intro x; simp [doubleTimes]
  | succ k ih =>
      intro x
      rw [doubleTimes, ih (x + x)]
      rw [pow_succ, mul_smul]
      rw [two_smul]

theorem bucketScan_spec (l : List G) : bucketScan l = (l.sum, listWeightedSum l) := by
  induction l with
  | nil => rfl
  | cons b bs ih =>
      simp only [bucketScan, List.foldr_cons] at *
      rw [ih]
      refine Prod.ext ?_ ?_
      · simp [List.sum_cons]; abel
      · simp [listWeightedSum]; abel

theorem sum_set_add (bs : List G) : ∀ (j : Nat) (g : G), j < bs.length →
    (bs.set j (bs.getD j 0 + g)).sum = bs.sum + g := by
  induction bs with
  | nil => intro j g h; simp at h
  | cons b bs ih =>
      intro j g h
      cases j with
      | zero => simp [List.set]; abel
      | succ j =>
          have hj : j < bs.length := by simpa using h
          simp only [List.set_cons_succ, List.getD_cons_succ, List.sum_cons]
          rw [ih j g hj]
          abel

theorem listWeightedSum_bucketAdd (bs : List G) : ∀ (j : Nat) (g : G), j < bs.length →
    listWeightedSum (bucketAdd bs j g) = listWeightedSum bs + (j + 1) • g := by
  induction bs with
  | nil => intro j g h; simp at h
  | cons b bs ih =>
      intro j g h
      cases j with
      | zero =>
          simp only [bucketAdd, List.set_cons_zero, List.getD_cons_zero, listWeightedSum]
          rw [one_nsmul]
          abel
      | succ j =>
          have hj : j < bs.length := by simpa using h
          simp only [bucketAdd, List.set_cons_succ, List.getD_cons_succ, listWeightedSum]
          have hsum : (bs.set j (bs.getD j 0 + g)).sum = bs.sum + g := sum_set_add bs j g hj
          have hws := ih j g hj
          simp only [bucketAdd] at hws
          rw [hsum, hws, succ_nsmul g (j + 1)]
          abel

theorem ws_replicate (k : Nat) : listWeightedSum (List.replicate k (0 : G)) = 0 := by
  induction k with
  | zero => rfl
  | succ k ih =>
      rw [List.replicate_succ, listWeightedSum, ih]
      simp

theorem ws_fillFold (bases : List G) (d : Nat → Nat) (len : Nat) :
    ∀ (idxs : List Nat) (B : List G), B.length = len → (∀ i ∈ idxs, d i ≤ len) →
      listWeightedSum (idxs.foldl
        (fun bkts i => if d i = 0 then bkts else bucketAdd bkts (d i - 1) (bases.getD i 0)) B)
      = listWeightedSum B + (idxs.map (fun i => d i • bases.getD i 0)).sum := by
  intro idxs
  induction idxs with
  | nil => intro B hB hd; simp
  | cons i idxs ih =>
      intro B hB hd
      simp only [List.foldl_cons, List.map_cons, List.sum_cons]
      by_cases hz : d i = 0
      · rw [if_pos hz, ih B hB (fun j hj => hd j (by simp [hj])), hz]
        simp
      · rw [if_neg hz]
        have hdi := hd i (by simp)
        have hlt : d i - 1 < B.length := by omega
        have hlen' : (bucketAdd B (d i - 1) (bases.getD i 0)).length = len := by
          simp [bucketAdd, hB]
        rw [ih (bucketAdd B (d i - 1) (bases.getD i 0)) hlen'
            (fun j hj => hd j (by simp [hj]))]
        rw [listWeightedSum_bucketAdd B (d i - 1) _ hlt]
        have hfix : d i - 1 + 1 = d i := by omega
        rw [hfix]
        abel

theorem foldl_add_eq_sum (g : Nat → G) : ∀ (idxs : List Nat) (acc : G),
    idxs.foldl (fun a i => a + g i) acc = acc + (idxs.map g).sum := by
  intro idxs
  induction idxs with
  | nil => intro acc; simp
  | cons i idxs ih =>
      intro acc
      simp only [List.foldl_cons, List.map_cons, List.sum_cons]
      rw [ih]
      abel

theorem list_range_map_sum (f : Nat → G) (k : Nat) :
    ((List.range k).map f).sum = ∑ i ∈ Finset.range k, f i := by
  induction k with
  | zero => simp
  | succ k ih =>
      rw [List.range_succ, List.map_append, List.sum_append, ih, Finset.sum_range_succ]
      simp

theorem horner_windows (w : Nat) (f : Nat → G) :
    ∀ (k : Nat) (acc : G),
      ((List.range k).reverse).foldl (fun a win => doubleTimes w a + f win) acc
        = 2 ^ (w * k) • acc + ∑ win ∈ Finset.range k, 2 ^ (w * win) • f win := by
  intro k
  induction k with
  | zero => intro acc; simp
  | succ k ih =>
      intro acc
      rw [List.range_succ, List.reverse_append]
      simp only [List.reverse_singleton, List.singleton_append, List.foldl_cons]
      rw [ih (doubleTimes w acc + f k), doubleTimes_eq, Finset.sum_range_succ]
      rw [smul_add, smul_smul, ← pow_add]
      have : w * k + w = w * (k + 1) := by ring
      rw [this]
      abel

end MSMEngineLemmas

/-! ### Claim theorems -/

theorem Q_lt_two_pow_255 : Q < 2 ^ 255 := by decide

/-- C3: for every pair of base/scalar lists (of any lengths; the engine uses
the shorter one), the windowed Pippenger bucket MSM equals the schoolbook
accumulation `Σ scalars[i] • bases[i]` of `circuit::msm_reference`, over any
additive commutative group. -/
theorem msm_pippenger_eq_msm_reference {G : Type} [AddCommGroup G]
    (bases : List G) (scalars : List FqPallas) :
    msm_pippenger bases scalars = msm_schoolbook bases scalars := by
  simp only [msm_pippenger, msm_schoolbook]
  rw [Nat.min_comm scalars.length bases.length]
  by_cases hm0 : min bases.length scalars.length = 0
  · rw [if_pos hm0, hm0]
    simp
  · rw [if_neg hm0]
    set m := min bases.length scalars.length with hm
    set w := optimal_window m with hwdef
    have hwpos : 0 < w := by
      rw [hwdef]
      unfold optimal_window
      split_ifs <;> norm_num
    set nw := (NUM_BITS + w - 1) / w with hnwdef
    have hms : m ≤ scalars.length := min_le_right _ _
    -- byte strings of the first m scalars
    have hsle : ∀ i, i < m →
        (((scalars.take m).map scalarLeBytes).getD i []) = leBytes 32 ((scalars.getD i 0).val) := by
      intro i hi
      have hilen : i < ((scalars.take m).map scalarLeBytes).length := by
        simp [List.length_take]
        omega
      rw [List.getD_eq_getElem?_getD, List.getElem?_eq_getElem hilen]
      simp [List.getElem_map, List.getElem_take, scalarLeBytes]
      congr 1
      rw [List.getElem?_eq_getElem (show i < scalars.length by omega)]
      rfl
    -- digit values
    have hdig : ∀ win i, i < m →
        window_value (((scalars.take m).map scalarLeBytes).getD i []) win w
          = (scalars.getD i 0).val / 2 ^ (win * w) % 2 ^ w := by
      intro win i hi
      rw [hsle i hi]
      apply window_value_spec
      calc (scalars.getD i 0).val < Q := ZMod.val_lt _
      _ < 2 ^ 255 := Q_lt_two_pow_255
      _ < 2 ^ 256 := by norm_num
    -- per-window bucket total
    have hwin : ∀ win,
        (bucketScan (fillBuckets bases ((scalars.take m).map scalarLeBytes) win w m)).2
          = ∑ i ∈ Finset.range m,
              (window_value (((scalars.take m).map scalarLeBytes).getD i []) win w)
                • bases.getD i 0 := by
      intro win
      rw [bucketScan_spec]
      show listWeightedSum (fillBuckets bases ((scalars.take m).map scalarLeBytes) win w m) = _
      rw [fillBuckets]
      rw [ws_fillFold bases
          (fun i => window_value (((scalars.take m).map scalarLeBytes).getD i []) win w)
          (2 ^ w - 1) (List.range m) (List.replicate (2 ^ w - 1) 0)
          (by simp) ?_]
      · rw [ws_replicate, list_range_map_sum]
        simp
      · intro i hi
        have him : i < m := List.mem_range.1 hi
        show window_value (((scalars.take m).map scalarLeBytes).getD i []) win w ≤ 2 ^ w - 1
        rw [hdig win i him]
        have := Nat.mod_lt ((scalars.getD i 0).val / 2 ^ (win * w))
          (Nat.pos_pow_of_pos w (show 0 < 2 by norm_num))
        omega
    -- unfold the window fold
    rw [horner_windows w
        (fun win => (bucketScan (fillBuckets bases ((scalars.take m).map scalarLeBytes) win w m)).2)
        nw 0]
    rw [smul_zero, zero_add]
    -- rewrite each window's total
    rw [Finset.sum_congr rfl (fun win _ => by rw [hwin win])]
    -- push the outer smul inside, exchange, and collapse digits
    rw [Finset.sum_congr rfl (fun win _ => Finset.smul_sum)]
    rw [Finset.sum_comm]
    have hcollapse : ∀ i ∈ Finset.range m,
        (∑ win ∈ Finset.range nw,
            2 ^ (w * win) •
              (window_value (((scalars.take m).map scalarLeBytes).getD i []) win w)
                • bases.getD i 0)
          = (scalars.getD i 0).val • bases.getD i 0 := by
      intro i hi
      have him : i < m := Finset.mem_range.1 hi
      rw [Finset.sum_congr rfl (fun win _ => by
        rw [hdig win i him, smul_smul])]
      rw [← Finset.sum_smul]
      congr 1
      have : ∀ win, 2 ^ (w * win) * ((scalars.getD i 0).val / 2 ^ (win * w) % 2 ^ w)
          = (scalars.getD i 0).val / 2 ^ (win * w) % 2 ^ w * 2 ^ (win * w) := by
        intro win
        rw [Nat.mul_comm w win, Nat.mul_comm]
      rw [Finset.sum_congr rfl (fun win _ => this win)]
      rw [digits_reconstruct w ((scalars.getD i 0).val) nw]
      apply Nat.mod_eq_of_lt
      calc (scalars.getD i 0).val < Q := ZMod.val_lt _
      _ < 2 ^ 255 := Q_lt_two_pow_255
      _ ≤ 2 ^ (nw * w) := by
        apply Nat.pow_le_pow_right (by norm_num)
        rw [Nat.mul_comm]
        have h255 : NUM_BITS ≤ w * nw := ceil_mul_ge w NUM_BITS hwpos
        have hnb : NUM_BITS = 255 := rfl
        rw [hnb] at h255
        exact h255
    rw [Finset.sum_congr rfl hcollapse]
    -- schoolbook side
    rw [foldl_add_eq_sum (fun i => (scalars.getD i 0).val • bases.getD i 0) (List.range m) 0]
    rw [list_range_map_sum]
    simp




/-- C4: for every root list and every evaluation point `x`,
`eval_horner(roots_to_coeffs(roots), x) = eval_from_roots(roots, x)`. -/
theorem horner_of_roots_to_coeffs_eq_eval_from_roots
    (roots : List FrVesta) (x : FrVesta) :
    eval_horner (roots_to_coeffs roots) x = eval_from_roots roots x := by
  rw [roots_to_coeffs, eval_foldl_rtcNext]
  simp [eval_horner]

/-- C8: `roots_to_coeffs` returns `len(roots) + 1` coefficients and the last
(leading) coefficient is the multiplicative identity of field A. -/
theorem roots_to_coeffs_monic (roots : List FrVesta) :
    (roots_to_coeffs roots).length = roots.length + 1 ∧
      (roots_to_coeffs roots).getLast? = some 1 := by
  obtain ⟨hlen, hlast⟩ := foldl_rtcNext_shape roots [1] (by simp)
  refine ⟨?_, by rw [roots_to_coeffs, hlast]; rfl⟩
  rw [roots_to_coeffs, hlen]
  simp only [List.length_cons, List.length_nil]
  omega

/-- C2 (failing evaluation): `derive_base` never returns a point — the
27-byte `H2C_DOMAIN` personalization trips the 16-byte assert inside
`blake2b_simd::Params::personal`, so every call panics; in particular the
function is not total on `(chunk, idx)`. -/
theorem derive_base_always_crashes (chunk idx : Nat) : derive_base chunk idx = none := by
  simp only [derive_base, derive_scalar, blake2bHash]
  rw [if_neg (by decide)]
  rfl

/-- C5 (failing evaluation): `from_ai_pi` never returns a record: the eager
`ipa::g0()` argument of `unwrap_or` panics on every call (27-byte basis
personalization), so no published record can be produced, let alone a
self-verifying one. -/
theorem from_ai_pi_always_crashes (a_i p_i proof : List Nat) :
    from_ai_pi a_i p_i proof = none := by
  have hg : g0 = none := by decide
  unfold from_ai_pi
  cases hash_A_h a_i p_i <;> simp [hg]

/-- C6 (failing evaluation): on a record whose `h_i` equals the recomputed
domain-separated hash (here `A_i = P_i =` the 32-zero-byte identity encoding
and `h_i` the BLAKE2b-256 of the two encodings under `DOM_A_H`), both decodes
succeed and the hash comparison passes, after which `verify_step` panics
inside `map_vesta_scalar_to_pallas` (17-byte `DS_COEFF_MAP` personalization)
instead of returning a boolean. -/
theorem verify_step_crashes_on_matching_record :
    verify_step
      ⟨List.replicate 32 0,
       [63, 124, 19, 15, 187, 227, 97, 115, 238, 71, 20, 155, 255, 140, 2, 203,
        16, 102, 61, 178, 181, 92, 99, 90, 22, 143, 116, 151, 101, 139, 232, 175],
       List.replicate 32 0, []⟩
      (List.replicate 32 0) = none := by decide

/-- C7 (failing evaluation): `prove_wallet_step` returns the explicit
"alpha inverse mismatch" error exactly when `alpha_i * alpha_inv ≠ 1`; but
when the inverse check passes it panics at `ipa::g0()` (27-byte basis
personalization) instead of succeeding with three point encodings. -/
theorem prove_wallet_step_err_iff_mismatch_else_crash (w : WalletStepWitness) :
    prove_wallet_step w =
      if w.alpha_i * w.alpha_inv = 1 then StepResult.crash
      else StepResult.err "alpha inverse mismatch" := by
  have hg : g0 = none := by decide
  unfold prove_wallet_step
  rw [hg]
  by_cases h : w.alpha_i * w.alpha_inv = 1 <;> simp [h]

/-- C9 (counterexample): the basis-derivation tag `H2C_DOMAIN` is 27 bytes
long, outside the claimed 12–16 byte range. -/
theorem h2c_domain_length_outside_12_16 :
    ¬(12 ≤ H2C_DOMAIN.length ∧ H2C_DOMAIN.length ≤ 16) := by decide

/-- C9 (amended): each of the five domain-separation tags is a fixed ASCII
string, of lengths 27 (basis derivation), 17 (coefficient remap), 11
(accumulator `A`), 11 (secondary accumulator `S`) and 15 (block challenge)
bytes — between 11 and 27 bytes, not between 12 and 16. -/
theorem domain_tags_ascii_and_lengths :
    ((∀ b ∈ H2C_DOMAIN, b < 128) ∧ H2C_DOMAIN.length = 27) ∧
    ((∀ b ∈ DS_COEFF_MAP, b < 128) ∧ DS_COEFF_MAP.length = 17) ∧
    ((∀ b ∈ DOM_A_H, b < 128) ∧ DOM_A_H.length = 11) ∧
    ((∀ b ∈ DOM_S_H, b < 128) ∧ DOM_S_H.length = 11) ∧
    ((∀ b ∈ DOM_BLOCK_R, b < 128) ∧ DOM_BLOCK_R.length = 15) := by decide

/-- C10: the outcome of `verify_step` (including whether it panics) depends
only on the `p_i`, `h_i` and `a_next` fields of the record, never on the
attached proof bytes. -/
theorem verify_step_ignores_proof (p h an pf1 pf2 a : List Nat) :
    verify_step ⟨p, h, an, pf1⟩ a = verify_step ⟨p, h, an, pf2⟩ a := rfl

/-- C1 (failing evaluation): already on the two-element root list `[3, 5]` the
NTT-based conversion disagrees with the schoolbook and divide-and-conquer
conversions, which agree with each other: the product tree returns
`[16, P-8, 0]` instead of `[15, P-8, 1]`. -/
theorem fft_disagrees_on_roots_3_5 :
    roots_to_coeffs_parallel [3, 5] = roots_to_coeffs [3, 5] ∧
      roots_to_coeffs_fft [3, 5] ≠ some (roots_to_coeffs [3, 5]) := by
  constructor
  · decide
  · decide

end Tachyon
